import Mathlib

/-!
Verification of the `FrequencyTable` ADT of
`src/DescriptiveStatistics/freqtable/freq.py`.

A Python `dict` is insertion ordered, so `self._table` is embedded as an
association list `List (α × β)` with (in every reachable state) pairwise
distinct keys.  The dict primitives below reproduce the CPython semantics:
`d[k] = v` updates the first entry with key `k` in place, or appends a fresh
entry at the end; `d.pop(k)` removes the entry; `d[k]` / `d.get(k)` reads it.
Frequencies are embedded as `Int` (and as `ℚ` where a transform can produce a
non-integral value, Python being dynamically typed).  Python exceptions are
embedded as `Except PyError` / explicit error values.
-/

set_option autoImplicit false

namespace Freq

universe u

/-- The Python exception kinds the embedded code can raise. -/
inductive PyError where
  | typeError
  | valueError
  | indexError
  | invalidSortTypeError
  deriving DecidableEq, Repr

/-- A Python dict with `β`-valued entries, as an insertion-ordered association list. -/
abbrev TableV (α : Type u) (β : Type) : Type u := List (α × β)

/-- `FrequencyTable._table` with integer frequencies. -/
abbrev Table (α : Type u) : Type u := TableV α Int

variable {α : Type u} {β : Type}

/-- `d.get(k)` / `d[k]`: the value at the first entry with key `k`, if any. -/
def dictGet [DecidableEq α] : TableV α β → α → Option β
  | [], _ => none
  | (k', v') :: rest, k => if k' = k then some v' else dictGet rest k

/-- `d[k] = v`: replace the value at the first entry with key `k`, or append. -/
def dictSet [DecidableEq α] : TableV α β → α → β → TableV α β
  | [], k, v => [(k, v)]
  | (k', v') :: rest, k, v =>
    if k' = k then (k, v) :: rest else (k', v') :: dictSet rest k v

/-- `d.pop(k)`: drop the first entry with key `k`. -/
def dictPop [DecidableEq α] : TableV α β → α → TableV α β
  | [], _ => []
  | (k', v') :: rest, k => if k' = k then rest else (k', v') :: dictPop rest k

/-- The keys of a table, in order. -/
def keys (t : TableV α β) : List α := t.map (·.1)

/-- Python dict invariant: the keys are pairwise distinct. -/
def nodupKeys (t : TableV α β) : Prop := (keys t).Nodup

/-- Spec invariant: every stored frequency is positive. -/
def allPos [Zero β] [LT β] (t : TableV α β) : Prop := ∀ p ∈ t, 0 < p.2

instance [DecidableEq α] (t : TableV α β) : Decidable (nodupKeys t) :=
  inferInstanceAs (Decidable (keys t).Nodup)

instance [Zero β] [LT β] [DecidableRel ((· < ·) : β → β → Prop)] (t : TableV α β) :
    Decidable (allPos t) :=
  inferInstanceAs (Decidable (∀ p ∈ t, 0 < p.2))

/-- One step of `collections.Counter`: count one more occurrence of `x`. -/
def counterAdd [DecidableEq α] (t : Table α) (x : α) : Table α :=
  match dictGet t x with
  | some v => dictSet t x (v + 1)
  | none => t ++ [(x, 1)]

/-- `collections.Counter(data)`: tally `data`, keys in first-occurrence order. -/
def counter [DecidableEq α] (data : List α) : Table α :=
  data.foldl counterAdd []

/-- `get_total()`: the sum of all frequencies. -/
def get_total (t : Table α) : Int := (t.map (·.2)).sum

/-! ### Basic lemmas about the dict primitives -/

theorem dictGet_append [DecidableEq α] (t u : TableV α β) (k : α) :
    dictGet (t ++ u) k =
      match dictGet t k with
      | some v => some v
      | none => dictGet u k := by
  induction t with
  | nil => simp [dictGet]
  | cons p rest ih =>
    by_cases h : p.1 = k
    · simp [dictGet, h]
    · simpa [dictGet, h] using ih

theorem dictGet_dictSet [DecidableEq α] (t : TableV α β) (k k' : α) (v : β) :
    dictGet (dictSet t k v) k' = if k = k' then some v else dictGet t k' := by
  induction t with
  | nil =>
    by_cases h : k = k' <;> simp [dictSet, dictGet, h]
  | cons p rest ih =>
    obtain ⟨pk, pv⟩ := p
    by_cases h1 : pk = k
    · by_cases h2 : k = k'
      · simp [dictSet, dictGet, h1, h2]
      · have h4 : ¬ pk = k' := fun hh => h2 (h1.symm.trans hh)
        simp [dictSet, dictGet, h1, h2, h4]
    · by_cases h2 : k = k'
      · have h4 : ¬ pk = k' := fun hh => h1 (hh.trans h2.symm)
        subst h2
        simp [dictSet, dictGet, h1, h4, ih]
      · simp [dictSet, dictGet, h1, h2, ih]

theorem mem_dictSet [DecidableEq α] (t : TableV α β) (k : α) (v : β) (q : α × β) :
    q ∈ dictSet t k v → q = (k, v) ∨ q ∈ t := by
  induction t with
  | nil => simp [dictSet]
  | cons p rest ih =>
    by_cases h : p.1 = k
    · intro hq
      rcases (by simpa [dictSet, h] using hq : q = (k, v) ∨ q ∈ rest) with h1 | h1
      · exact Or.inl h1
      · exact Or.inr (List.mem_cons_of_mem _ h1)
    · intro hq
      rcases (by simpa [dictSet, h] using hq : q = p ∨ q ∈ dictSet rest k v) with h1 | h1
      · exact Or.inr (h1 ▸ List.mem_cons_self _ _)
      · rcases ih h1 with h2 | h2
        · exact Or.inl h2
        · exact Or.inr (List.mem_cons_of_mem _ h2)

theorem mem_dictPop [DecidableEq α] (t : TableV α β) (k : α) (q : α × β) :
    q ∈ dictPop t k → q ∈ t := by
  induction t with
  | nil => simp [dictPop]
  | cons p rest ih =>
    by_cases h : p.1 = k
    · intro hq
      exact List.mem_cons_of_mem _ (by simpa [dictPop, h] using hq)
    · intro hq
      rcases (by simpa [dictPop, h] using hq : q = p ∨ q ∈ dictPop rest k) with h1 | h1
      · exact h1 ▸ List.mem_cons_self _ _
      · exact List.mem_cons_of_mem _ (ih h1)

theorem dictGet_mem [DecidableEq α] (t : TableV α β) (k : α) (v : β) :
    dictGet t k = some v → (k, v) ∈ t := by
  induction t with
  | nil => simp [dictGet]
  | cons p rest ih =>
    by_cases h : p.1 = k
    · intro hv
      have : p.2 = v := by simpa [dictGet, h] using hv
      have : p = (k, v) := by
        cases p
        simp_all
      exact this ▸ List.mem_cons_self _ _
    · intro hv
      exact List.mem_cons_of_mem _ (ih (by simpa [dictGet, h] using hv))

/-- When `k` is absent, `d[k] = v` appends the new entry at the end. -/
theorem dictSet_absent [DecidableEq α] (t : TableV α β) (k : α) (v : β) :
    dictGet t k = none → dictSet t k v = t ++ [(k, v)] := by
  induction t with
  | nil => intro _; simp [dictSet]
  | cons p rest ih =>
    intro h
    by_cases h1 : p.1 = k
    · simp [dictGet, h1] at h
    · simp [dictSet, dictGet, h1] at h ⊢
      exact ih h

theorem dictGet_eq_none [DecidableEq α] (t : TableV α β) (k : α) :
    dictGet t k = none ↔ k ∉ keys t := by
  induction t with
  | nil => simp [dictGet, keys]
  | cons p rest ih =>
    by_cases h : p.1 = k
    · simp [dictGet, keys, h]
    · have h' : ¬ k = p.1 := fun hh => h hh.symm
      simp [dictGet, keys, h, h', ih]

theorem keys_dictSet_present [DecidableEq α] (t : TableV α β) (k : α) (v : β) :
    k ∈ keys t → keys (dictSet t k v) = keys t := by
  induction t with
  | nil => simp [keys]
  | cons p rest ih =>
    intro hk
    by_cases h : p.1 = k
    · simp [dictSet, keys, h]
    · have hk' : k ∈ keys rest := by
        rcases (by simpa [keys] using hk : k = p.1 ∨ k ∈ keys rest) with h1 | h1
        · exact absurd h1.symm h
        · exact h1
      simp [dictSet, keys, h]
      simpa [keys] using ih hk'

/-! ### `merge` -/

/-- Pointwise addition of two optional frequencies, the value `to_dict()` of a
merged table holds at a key. -/
def optAdd : Option Int → Option Int → Option Int
  | none, none => none
  | some a, none => some a
  | none, some b => some b
  | some a, some b => some (a + b)

/-- `merge(freqtable)`: fold the other table's entries into the receiver;
an absent key is inserted, a present key has the frequency added. -/
def merge [DecidableEq α] (t other : Table α) : Table α :=
  other.foldl
    (fun acc p =>
      match dictGet acc p.1 with
      | none => acc ++ [(p.1, p.2)]
      | some v => dictSet acc p.1 (v + p.2))
    t

theorem keys_merge_step [DecidableEq α] (t : Table α) (p : α × Int) :
    keys (match dictGet t p.1 with
          | none => t ++ [(p.1, p.2)]
          | some v => dictSet t p.1 (v + p.2)) =
      match dictGet t p.1 with
      | none => keys t ++ [p.1]
      | some _ => keys t := by
  cases h : dictGet t p.1 with
  | none => simp [keys]
  | some v =>
    have hmem : p.1 ∈ keys t := by
      by_contra hk
      rw [(dictGet_eq_none t p.1).mpr hk] at h
      exact Option.noConfusion h
    simp [keys_dictSet_present t p.1 (v + p.2) hmem]

theorem nodupKeys_merge [DecidableEq α] (t other : Table α) :
    nodupKeys t → nodupKeys (merge t other) := by
  induction other generalizing t with
  | nil => intro h; simpa [merge] using h
  | cons p rest ih =>
    intro h
    have hstep : merge t (p :: rest) =
        merge (match dictGet t p.1 with
               | none => t ++ [(p.1, p.2)]
               | some v => dictSet t p.1 (v + p.2)) rest := by
      simp [merge]
    rw [hstep]
    apply ih
    cases hg : dictGet t p.1 with
    | none =>
      have hk : p.1 ∉ keys t := (dictGet_eq_none t p.1).mp hg
      have : nodupKeys (t ++ [(p.1, p.2)]) := by
        unfold nodupKeys
        have : keys (t ++ [(p.1, p.2)]) = keys t ++ [p.1] := by simp [keys]
        rw [this]
        exact List.Nodup.append h (List.nodup_singleton _)
          (by simpa [List.disjoint_left] using hk)
      simpa [hg] using this
    | some v =>
      have hk : p.1 ∈ keys t := by
        by_contra hk
        rw [(dictGet_eq_none t p.1).mpr hk] at hg
        exact Option.noConfusion hg
      have : nodupKeys (dictSet t p.1 (v + p.2)) := by
        unfold nodupKeys
        rw [keys_dictSet_present t p.1 (v + p.2) hk]
        exact h
      simpa [hg] using this

/-- The `to_dict()` view of `merge`: the value at any key is the pointwise sum
of the two tables' values there. -/
theorem dictGet_merge [DecidableEq α] (t other : Table α) (k : α)
    (hother : nodupKeys other) :
    dictGet (merge t other) k = optAdd (dictGet t k) (dictGet other k) := by
  induction other generalizing t with
  | nil =>
    cases h : dictGet t k <;> simp [merge, optAdd, h, dictGet]
  | cons p rest ih =>
    have hcons : (p.1 :: keys rest).Nodup := hother
    have hknotin : p.1 ∉ keys rest := (List.nodup_cons.mp hcons).1
    have hrest : nodupKeys rest := (List.nodup_cons.mp hcons).2
    have hstep : merge t (p :: rest) =
        merge (match dictGet t p.1 with
               | none => t ++ [(p.1, p.2)]
               | some v => dictSet t p.1 (v + p.2)) rest := by
      simp [merge]
    rw [hstep, ih _ hrest]
    by_cases hk : p.1 = k
    · subst hk
      have hrestk : dictGet rest p.1 = none := (dictGet_eq_none rest p.1).mpr hknotin
      cases hg : dictGet t p.1 with
      | none =>
        simp [hg, dictGet_append, dictGet, hrestk, optAdd]
      | some v =>
        simp [hg, dictGet_dictSet, hrestk, dictGet, optAdd]
    · have hk' : ¬ p.1 = k := hk
      cases hg : dictGet t p.1 with
      | none =>
        simp [hg, dictGet_append, dictGet, hk', optAdd]
        cases dictGet t k <;> cases dictGet rest k <;> simp [optAdd]
      | some v =>
        simp [hg, dictGet_dictSet, hk', dictGet]

/-- Claim C6: merge is commutative (and associative) on the multiset union of
frequencies: at every key, merging B into a copy of A and merging A into a copy
of B yield equal `to_dict()` values (overlapping frequencies are summed), for
disjoint or overlapping key sets alike. -/
theorem claim_C6 (A B C : Table Int)
    (hA : nodupKeys A) (hB : nodupKeys B) (hC : nodupKeys C) (k : Int) :
    dictGet (merge A B) k = optAdd (dictGet A k) (dictGet B k) ∧
    dictGet (merge A B) k = dictGet (merge B A) k ∧
    dictGet (merge (merge A B) C) k = dictGet (merge A (merge B C)) k := by
  refine ⟨dictGet_merge A B k hB, ?_, ?_⟩
  · rw [dictGet_merge A B k hB, dictGet_merge B A k hA]
    cases dictGet A k <;> cases dictGet B k <;> simp [optAdd, Int.add_comm]
  · rw [dictGet_merge _ C k hC, dictGet_merge A B k hB,
      dictGet_merge A _ k (nodupKeys_merge B C hB), dictGet_merge B C k hC]
    cases dictGet A k <;> cases dictGet B k <;> cases dictGet C k <;>
      simp [optAdd, Int.add_assoc]

/-- Claim C6 witness: the theorem applied to the overlapping concrete tables
A = \x7b1:2, 2:1\x7d, B = \x7b1:3, 3:4\x7d, C = \x7b2:5\x7d at key 1. -/
theorem claim_C6_witness :
    nodupKeys [((1:Int),(2:Int)), (2,1)] ∧ nodupKeys [((1:Int),(3:Int)), (3,4)] ∧
    nodupKeys [((2:Int),(5:Int))] ∧
    (dictGet (merge [((1:Int),(2:Int)), (2,1)] [(1,3),(3,4)]) 1 =
        optAdd (dictGet [((1:Int),(2:Int)), (2,1)] 1) (dictGet [((1:Int),(3:Int)), (3,4)] 1) ∧
      dictGet (merge [((1:Int),(2:Int)), (2,1)] [(1,3),(3,4)]) 1 =
        dictGet (merge [((1:Int),(3:Int)), (3,4)] [(1,2),(2,1)]) 1 ∧
      dictGet (merge (merge [((1:Int),(2:Int)), (2,1)] [(1,3),(3,4)]) [(2,5)]) 1 =
        dictGet (merge [((1:Int),(2:Int)), (2,1)] (merge [(1,3),(3,4)] [(2,5)])) 1) :=
  ⟨by decide, by decide, by decide,
    claim_C6 [(1,2),(2,1)] [(1,3),(3,4)] [(2,5)] (by decide) (by decide) (by decide) 1⟩

/-! ### `filter_by_freq` -/

/-- `filter_by_freq(min_frequency, max_frequency)`: build a fresh table holding
the entries whose frequency lies in `range(min, max + 1)`, which for integers
is the inclusive range `[min, max]`. -/
def filter_by_freq [DecidableEq α] (t : Table α) (mn mx : Int) : Table α :=
  t.foldl
    (fun acc p => if mn ≤ p.2 ∧ p.2 ≤ mx then dictSet acc p.1 p.2 else acc)
    []

theorem filter_foldl_eq [DecidableEq α] (t : Table α) (mn mx : Int) :
    ∀ acc : Table α, nodupKeys t → (∀ k ∈ keys acc, k ∉ keys t) →
    t.foldl (fun acc p => if mn ≤ p.2 ∧ p.2 ≤ mx then dictSet acc p.1 p.2 else acc) acc =
      acc ++ t.filter (fun p => decide (mn ≤ p.2 ∧ p.2 ≤ mx)) := by
  induction t with
  | nil => intro acc _ _; simp
  | cons p rest ih =>
    intro acc ht hdisj
    have hcons : (p.1 :: keys rest).Nodup := ht
    have hprest : p.1 ∉ keys rest := (List.nodup_cons.mp hcons).1
    have hrest : nodupKeys rest := (List.nodup_cons.mp hcons).2
    have hpacc : p.1 ∉ keys acc := fun h => hdisj p.1 h (by simp [keys])
    by_cases hcond : mn ≤ p.2 ∧ p.2 ≤ mx
    · have hset : dictSet acc p.1 p.2 = acc ++ [(p.1, p.2)] :=
        dictSet_absent acc p.1 p.2 ((dictGet_eq_none acc p.1).mpr hpacc)
      have hdisj' : ∀ k ∈ keys (acc ++ [(p.1, p.2)]), k ∉ keys rest := by
        intro k hk
        rcases (by simpa [keys] using hk : k ∈ keys acc ∨ k = p.1) with h1 | h1
        · exact fun hmem => hdisj k h1 (List.mem_cons_of_mem _ hmem)
        · exact h1 ▸ hprest
      simp only [List.foldl_cons]
      rw [if_pos hcond, hset, ih (acc ++ [(p.1, p.2)]) hrest hdisj',
        List.filter_cons_of_pos (by simpa using hcond)]
      simp
    · have hdisj' : ∀ k ∈ keys acc, k ∉ keys rest :=
        fun k hk hmem => hdisj k hk (List.mem_cons_of_mem _ hmem)
      simp only [List.foldl_cons]
      rw [if_neg hcond, ih acc hrest hdisj',
        List.filter_cons_of_neg (by simpa using hcond)]

theorem filter_by_freq_eq [DecidableEq α] (t : Table α) (mn mx : Int)
    (ht : nodupKeys t) :
    filter_by_freq t mn mx = t.filter (fun p => decide (mn ≤ p.2 ∧ p.2 ≤ mx)) := by
  simpa using filter_foldl_eq t mn mx [] ht (by simp [keys])

theorem get_total_nonneg (t : Table α) (hpos : allPos t) : 0 ≤ get_total t := by
  induction t with
  | nil => simp [get_total]
  | cons p rest ih =>
    have h1 : 0 < p.2 := hpos p (List.mem_cons_self _ _)
    have h2 : 0 ≤ get_total rest := ih (fun q hq => hpos q (List.mem_cons_of_mem _ hq))
    have : get_total (p :: rest) = p.2 + get_total rest := by simp [get_total]
    rw [this]
    linarith

theorem freq_le_total (t : Table α) (hpos : allPos t) (p : α × Int) (hp : p ∈ t) :
    p.2 ≤ get_total t := by
  induction t with
  | nil => cases hp
  | cons q rest ih =>
    have hq : 0 < q.2 := hpos q (List.mem_cons_self _ _)
    have hrpos : allPos rest := fun r hr => hpos r (List.mem_cons_of_mem _ hr)
    have htot : get_total (q :: rest) = q.2 + get_total rest := by simp [get_total]
    rcases List.mem_cons.mp hp with h1 | h1
    · rw [htot, h1]
      have := get_total_nonneg rest hrpos
      linarith
    · rw [htot]
      have := ih hrpos h1
      linarith

/-- Claim C5: `filter_by_freq(min, max)` returns a fresh table holding exactly
the entries whose frequency lies in the inclusive range [min, max] (the
receiver, a pure value here, is untouched), and `filter_by_freq(0, get_total())`
returns every original entry unchanged. -/
theorem claim_C5 (t : Table Int) (mn mx : Int) (hnd : nodupKeys t) (hpos : allPos t) :
    filter_by_freq t mn mx = t.filter (fun p => decide (mn ≤ p.2 ∧ p.2 ≤ mx)) ∧
    (∀ p : Int × Int, p ∈ filter_by_freq t mn mx ↔ p ∈ t ∧ mn ≤ p.2 ∧ p.2 ≤ mx) ∧
    filter_by_freq t 0 (get_total t) = t := by
  refine ⟨filter_by_freq_eq t mn mx hnd, ?_, ?_⟩
  · intro p
    rw [filter_by_freq_eq t mn mx hnd]
    simp [List.mem_filter]
  · rw [filter_by_freq_eq t 0 (get_total t) hnd]
    rw [List.filter_eq_self]
    intro p hp
    have h1 := hpos p hp
    have h2 := freq_le_total t hpos p hp
    simp
    exact ⟨le_of_lt h1, h2⟩

/-- Claim C5 witness: the theorem applied to the spec's scenario-3 table
\x7b1:1, 2:5, 3:2\x7d with min 2, max 5 yields \x7b2:5, 3:2\x7d. -/
theorem claim_C5_witness :
    nodupKeys [((1:Int),(1:Int)), (2,5), (3,2)] ∧
    allPos [((1:Int),(1:Int)), (2,5), (3,2)] ∧
    filter_by_freq [((1:Int),(1:Int)), (2,5), (3,2)] 2 5 = [(2,5),(3,2)] := by
  refine ⟨by decide, by decide, ?_⟩
  rw [(claim_C5 [(1,1),(2,5),(3,2)] 2 5 (by decide) (by decide)).1]
  decide

/-! ### `apply_frequency_operation` -/

/-- `apply_frequency_operation(func)`: the first pass stores `func(freq)` at
every entry whose new frequency is positive and records the keys whose new
frequency is `<= 0`; the second pass pops every recorded key.  Generic in the
frequency type, since in Python the transform may return non-integers. -/
def apply_frequency_operation [DecidableEq α] [LinearOrder β] [Zero β]
    (t : TableV α β) (f : β → β) : TableV α β :=
  let updated := t.map (fun p => if f p.2 ≤ 0 then p else (p.1, f p.2))
  let negs := (t.filter (fun p => decide (f p.2 ≤ 0))).map (·.1)
  negs.foldl (fun acc k => dictPop acc k) updated

theorem foldl_dictPop_cons [DecidableEq α] (q : α × β) (ks : List α) :
    ∀ rest : TableV α β, q.1 ∉ ks →
    ks.foldl (fun acc k => dictPop acc k) (q :: rest) =
      q :: ks.foldl (fun acc k => dictPop acc k) rest := by
  induction ks with
  | nil => intro rest _; rfl
  | cons k ks ih =>
    intro rest h
    have h1 : ¬ q.1 = k := fun hh => h (hh ▸ List.mem_cons_self _ _)
    simp only [List.foldl_cons]
    rw [show dictPop (q :: rest) k = q :: dictPop rest k from by simp [dictPop, h1]]
    exact ih (dictPop rest k) (fun hm => h (List.mem_cons_of_mem _ hm))

/-- With distinct keys, `apply_frequency_operation` keeps exactly the entries
whose transformed frequency is positive, in order, with the new frequency. -/
theorem apply_frequency_operation_eq [DecidableEq α] [LinearOrder β] [Zero β]
    (t : TableV α β) (f : β → β) (hnd : nodupKeys t) :
    apply_frequency_operation t f =
      t.filterMap (fun p => if f p.2 ≤ 0 then none else some (p.1, f p.2)) := by
  induction t with
  | nil => rfl
  | cons p rest ih =>
    have hcons : (p.1 :: keys rest).Nodup := hnd
    have hprest : p.1 ∉ keys rest := (List.nodup_cons.mp hcons).1
    have hrest : nodupKeys rest := (List.nodup_cons.mp hcons).2
    have ih' := ih hrest
    simp only [apply_frequency_operation] at ih' ⊢
    by_cases hc : f p.2 ≤ 0
    · rw [show (p :: rest).map (fun q => if f q.2 ≤ 0 then q else (q.1, f q.2)) =
          p :: rest.map (fun q => if f q.2 ≤ 0 then q else (q.1, f q.2)) from by simp [hc]]
      rw [List.filter_cons_of_pos (by simpa using hc), List.map_cons, List.foldl_cons]
      rw [show dictPop (p :: rest.map (fun q => if f q.2 ≤ 0 then q else (q.1, f q.2))) p.1 =
          rest.map (fun q => if f q.2 ≤ 0 then q else (q.1, f q.2)) from by simp [dictPop]]
      rw [ih', List.filterMap_cons]
      simp [hc]
    · rw [show (p :: rest).map (fun q => if f q.2 ≤ 0 then q else (q.1, f q.2)) =
          (p.1, f p.2) :: rest.map (fun q => if f q.2 ≤ 0 then q else (q.1, f q.2)) from by
        simp [hc]]
      rw [List.filter_cons_of_neg (by simpa using hc)]
      have hnotin : ((p.1, f p.2) : α × β).1 ∉
          (rest.filter (fun q => decide (f q.2 ≤ 0))).map (·.1) := by
        intro hm
        rcases List.mem_map.mp hm with ⟨q, hq, hqeq⟩
        exact hprest (hqeq ▸ List.mem_map_of_mem _ (List.mem_filter.mp hq).1)
      rw [foldl_dictPop_cons _ _ _ hnotin, ih', List.filterMap_cons]
      simp [hc]

theorem filterMap_pos_id (t : Table α) (hpos : allPos t) :
    t.filterMap (fun p => if p.2 ≤ 0 then none else some (p.1, p.2)) = t := by
  induction t with
  | nil => rfl
  | cons p rest ih =>
    have h1 : ¬ p.2 ≤ 0 := not_le.mpr (hpos p (List.mem_cons_self _ _))
    rw [List.filterMap_cons]
    simp only [h1, if_neg, not_false_iff]
    rw [ih (fun q hq => hpos q (List.mem_cons_of_mem _ hq))]

theorem key_inj [DecidableEq α] (t : TableV α β) (hnd : nodupKeys t)
    (p q : α × β) (hp : p ∈ t) (hq : q ∈ t) (hk : p.1 = q.1) : p = q :=
  List.inj_on_of_nodup_map hnd hp hq hk

/-- Claim C7: `apply_frequency_operation` with the identity is a no-op, with the
constant function -1 it empties the table, and in general every entry whose new
frequency is `<= 0` is removed while every surviving entry carries its positive
new frequency. -/
theorem claim_C7 (t : Table Int) (hnd : nodupKeys t) (hpos : allPos t) :
    apply_frequency_operation t (fun v => v) = t ∧
    apply_frequency_operation t (fun _ => (-1 : Int)) = [] ∧
    ∀ f : Int → Int,
      (∀ p ∈ apply_frequency_operation t f, 0 < p.2) ∧
      (∀ p ∈ t, f p.2 ≤ 0 → ∀ w : Int, (p.1, w) ∉ apply_frequency_operation t f) ∧
      (∀ p ∈ t, 0 < f p.2 → (p.1, f p.2) ∈ apply_frequency_operation t f) := by
  refine ⟨?_, ?_, ?_⟩
  · rw [apply_frequency_operation_eq t _ hnd]
    exact filterMap_pos_id t hpos
  · rw [apply_frequency_operation_eq t _ hnd]
    rw [List.filterMap_eq_nil_iff]
    intro p _
    norm_num
  · intro f
    rw [apply_frequency_operation_eq t f hnd]
    refine ⟨?_, ?_, ?_⟩
    · intro p hp
      rcases List.mem_filterMap.mp hp with ⟨q, _, hq2⟩
      by_cases hc : f q.2 ≤ 0
      · simp [hc] at hq2
      · have : p = (q.1, f q.2) := by
          have := hq2
          rw [if_neg hc] at this
          exact (Option.some_injective _ this).symm
        rw [this]
        exact not_le.mp hc
    · intro p hp hneg w hmem
      rcases List.mem_filterMap.mp hmem with ⟨q, hq1, hq2⟩
      by_cases hc : f q.2 ≤ 0
      · simp [hc] at hq2
      · have hqp : (p.1, w) = (q.1, f q.2) := by
          have := hq2
          rw [if_neg hc] at this
          exact (Option.some_injective _ this).symm
        have hkeq : p.1 = q.1 := by injection hqp with h1 h2
        have : p = q := key_inj t hnd p q hp hq1 hkeq
        rw [this] at hneg
        exact hc hneg
    · intro p hp hposf
      refine List.mem_filterMap.mpr ⟨p, hp, ?_⟩
      rw [if_neg (not_le.mpr hposf)]

/-- Claim C7 witness: the theorem applied to the table \x7b1:1, 2:2, 3:3\x7d,
with the general clause instantiated at the transform v - 2. -/
theorem claim_C7_witness :
    nodupKeys [((1:Int),(1:Int)), (2,2), (3,3)] ∧
    allPos [((1:Int),(1:Int)), (2,2), (3,3)] ∧
    apply_frequency_operation [((1:Int),(1:Int)), (2,2), (3,3)] (fun v => v) =
      [(1,1), (2,2), (3,3)] ∧
    apply_frequency_operation [((1:Int),(1:Int)), (2,2), (3,3)] (fun _ => (-1 : Int)) = [] ∧
    ((3:Int), (1:Int)) ∈
      apply_frequency_operation [((1:Int),(1:Int)), (2,2), (3,3)] (fun v => v - 2) := by
  have h := claim_C7 [(1,1),(2,2),(3,3)] (by decide) (by decide)
  exact ⟨by decide, by decide, h.1, h.2.1,
    (h.2.2 (fun v => v - 2)).2.2 (3,3) (by decide) (by decide)⟩

/-! ### `append` and `map_elements` -/

/-- `append(data_to_append)` on hashable data: tally with `Counter`, then add
each count into the table (existing keys add in place, new keys go at the
end). -/
def appendItems [DecidableEq α] (t : Table α) (data : List α) : Table α :=
  (counter data).foldl
    (fun tbl p =>
      match dictGet tbl p.1 with
      | some v => dictSet tbl p.1 (v + p.2)
      | none => dictSet tbl p.1 p.2)
    t

/-- `map_elements(func)`: iterate over a snapshot of the keys; for each key
read its current frequency from the live table, pop it, and add the frequency
at `func(key)`.  `func` returning `none` models a per-item exception, which
leaves that item untouched. -/
def map_elements [DecidableEq α] (t : Table α) (f : α → Option α) : Table α :=
  (t.map (·.1)).foldl
    (fun tbl item =>
      match f item with
      | none => tbl
      | some newItem =>
        match dictGet tbl item with
        | none => tbl
        | some freq =>
          let t' := dictPop tbl item
          match dictGet t' newItem with
          | some v => dictSet t' newItem (v + freq)
          | none => dictSet t' newItem freq)
    t

/-- Claim C1 (code bug): `map_elements` walks a snapshot of the keys but reads
frequencies from the live table, so mass remapped onto a still-pending key is
remapped again.  On \x7b1:1, 2:1\x7d with f(k) = k + 1 the code produces
\x7b3:2\x7d, not the image result \x7b2:1, 3:1\x7d the claim describes. -/
theorem claim_C1 :
    map_elements [((1:Int),(1:Int)), (2,1)] (fun k => some (k + 1)) = [(3,2)] ∧
    map_elements [((1:Int),(1:Int)), (2,1)] (fun k => some (k + 1)) ≠ [(2,1),(3,1)] := by
  constructor
  · rfl
  · intro h
    have : ([((3:Int),(2:Int))] : Table Int) = [(2,1),(3,1)] := by
      rw [← h]; rfl
    simp at this

/-! ### `append` with unhashable elements (claim C2) -/

/-- A Python value for the `append` analysis: ints are hashable, lists are
not. -/
inductive PyVal where
  | int : Int → PyVal
  | list : List Int → PyVal
  deriving DecidableEq, Repr

/-- Whether `isinstance(x, Hashable)` holds for the value. -/
def PyVal.hashable : PyVal → Bool
  | int _ => true
  | list _ => false

/-- `collections.Counter(data)`: counting hashes every element in order, and
hashing an unhashable element raises `TypeError` before any result exists. -/
def counterE (data : List PyVal) : Except PyError (Table PyVal) :=
  data.foldlM
    (fun acc x =>
      if x.hashable then Except.ok (counterAdd acc x)
      else Except.error PyError.typeError)
    []

/-- The argument of `append`: an iterable of values, or a non-iterable. -/
inductive PyData where
  | iter : List PyVal → PyData
  | notIter : PyData

/-- `append(data_to_append)` exactly as written: the iterable check, then
`Counter(data_to_append)` — which raises on an unhashable element — then the
per-item loop whose unhashable-skip branch comes after the Counter call. -/
def appendPy (t : Table PyVal) (d : PyData) : Except PyError (Table PyVal) :=
  match d with
  | .notIter => .error .typeError
  | .iter data =>
    match counterE data with
    | .error e => .error e
    | .ok c =>
      .ok (c.foldl
        (fun tbl p =>
          match dictGet tbl p.1 with
          | some v => dictSet tbl p.1 (v + p.2)
          | none => if p.1.hashable then dictSet tbl p.1 p.2 else tbl)
        t)

/-- Claim C2 (code bug): `Counter` hashes every element of the batch first, so
one unhashable element makes the whole `append` raise `TypeError` — nothing is
skipped and the other elements are not added, against the claim.  The
non-iterable `TypeError` and the plain tallying behaviour do hold. -/
theorem claim_C2 :
    appendPy [(PyVal.int 1, 1)] (PyData.iter [PyVal.list [1], PyVal.int 2]) =
      Except.error PyError.typeError ∧
    (∀ t : Table PyVal, appendPy t PyData.notIter = Except.error PyError.typeError) ∧
    appendPy [(PyVal.int 1, 1)] (PyData.iter [PyVal.int 2, PyVal.int 2]) =
      Except.ok [(PyVal.int 1, 1), (PyVal.int 2, 2)] :=
  ⟨rfl, fun _ => rfl, rfl⟩

/-! ### Stable sorting (Python `sorted` / `list.sort`)

Python's `sorted` is a stable sort; with `reverse=True` it is a stable
descending sort (equal keys keep their original relative order).  A stable
insertion sort embeds both. -/

variable {γ : Type u}

/-- Insert into an ascending-by-key sorted list, in front of the first element
whose key is `>=` the inserted one; since the inserted element is earlier in
the original list than everything already sorted, ties keep original order. -/
def insertAsc (key : γ → Int) (x : γ) : List γ → List γ
  | [] => [x]
  | y :: ys => if key x ≤ key y then x :: y :: ys else y :: insertAsc key x ys

/-- Stable ascending insertion sort (Python `sorted` / `list.sort`). -/
def pySortAsc (key : γ → Int) : List γ → List γ
  | [] => []
  | x :: xs => insertAsc key x (pySortAsc key xs)

/-- Insert into a descending-by-key sorted list; an earlier element with an
equal key stays in front (stability). -/
def insertDesc (key : γ → Int) (x : γ) : List γ → List γ
  | [] => [x]
  | y :: ys => if key y ≤ key x then x :: y :: ys else y :: insertDesc key x ys

/-- Stable descending insertion sort (Python `sorted(..., reverse=True)`). -/
def pySortDesc (key : γ → Int) : List γ → List γ
  | [] => []
  | x :: xs => insertDesc key x (pySortDesc key xs)

theorem insertAsc_perm (key : γ → Int) (x : γ) (l : List γ) :
    (insertAsc key x l).Perm (x :: l) := by
  induction l with
  | nil => simp [insertAsc]
  | cons y ys ih =>
    by_cases h : key x ≤ key y
    · rw [show insertAsc key x (y :: ys) = x :: y :: ys from by simp [insertAsc, h]]
    · rw [show insertAsc key x (y :: ys) = y :: insertAsc key x ys from by
        simp [insertAsc, h]]
      exact (ih.cons y).trans (List.Perm.swap x y ys)

theorem pySortAsc_perm (key : γ → Int) (l : List γ) : (pySortAsc key l).Perm l := by
  induction l with
  | nil => simp [pySortAsc]
  | cons x xs ih =>
    rw [pySortAsc]
    exact (insertAsc_perm key x (pySortAsc key xs)).trans (ih.cons x)

theorem insertDesc_perm (key : γ → Int) (x : γ) (l : List γ) :
    (insertDesc key x l).Perm (x :: l) := by
  induction l with
  | nil => simp [insertDesc]
  | cons y ys ih =>
    by_cases h : key y ≤ key x
    · rw [show insertDesc key x (y :: ys) = x :: y :: ys from by simp [insertDesc, h]]
    · rw [show insertDesc key x (y :: ys) = y :: insertDesc key x ys from by
        simp [insertDesc, h]]
      exact (ih.cons y).trans (List.Perm.swap x y ys)

theorem pySortDesc_perm (key : γ → Int) (l : List γ) : (pySortDesc key l).Perm l := by
  induction l with
  | nil => simp [pySortDesc]
  | cons x xs ih =>
    rw [pySortDesc]
    exact (insertDesc_perm key x (pySortDesc key xs)).trans (ih.cons x)

theorem insertAsc_sorted (key : γ → Int) (x : γ) (l : List γ)
    (h : List.Sorted (fun a b => key a ≤ key b) l) :
    List.Sorted (fun a b => key a ≤ key b) (insertAsc key x l) := by
  induction l with
  | nil => simp [insertAsc]
  | cons y ys ih =>
    rcases List.sorted_cons.mp h with ⟨hy, hys⟩
    by_cases hc : key x ≤ key y
    · rw [show insertAsc key x (y :: ys) = x :: y :: ys from by simp [insertAsc, hc]]
      refine List.sorted_cons.mpr ⟨?_, h⟩
      intro b hb
      rcases List.mem_cons.mp hb with h1 | h1
      · exact h1 ▸ hc
      · exact le_trans hc (hy b h1)
    · rw [show insertAsc key x (y :: ys) = y :: insertAsc key x ys from by
        simp [insertAsc, hc]]
      refine List.sorted_cons.mpr ⟨?_, ih hys⟩
      intro b hb
      rcases List.mem_cons.mp ((insertAsc_perm key x ys).mem_iff.mp hb) with h1 | h1
      · exact h1 ▸ le_of_lt (not_le.mp hc)
      · exact hy b h1

theorem pySortAsc_sorted (key : γ → Int) (l : List γ) :
    List.Sorted (fun a b => key a ≤ key b) (pySortAsc key l) := by
  induction l with
  | nil => simp [pySortAsc]
  | cons x xs ih =>
    rw [pySortAsc]
    exact insertAsc_sorted key x _ ih

theorem pySortAsc_const (key : γ → Int) (c : Int) (l : List γ)
    (h : ∀ x ∈ l, key x = c) : pySortAsc key l = l := by
  induction l with
  | nil => rfl
  | cons x xs ih =>
    rw [pySortAsc, ih (fun y hy => h y (List.mem_cons_of_mem _ hy))]
    cases xs with
    | nil => rfl
    | cons y ys =>
      have hxy : key x ≤ key y := by
        rw [h x (List.mem_cons_self _ _), h y (List.mem_cons_of_mem _ (List.mem_cons_self _ _))]
      simp [insertAsc, hxy]

theorem pySortDesc_const (key : γ → Int) (c : Int) (l : List γ)
    (h : ∀ x ∈ l, key x = c) : pySortDesc key l = l := by
  induction l with
  | nil => rfl
  | cons x xs ih =>
    rw [pySortDesc, ih (fun y hy => h y (List.mem_cons_of_mem _ hy))]
    cases xs with
    | nil => rfl
    | cons y ys =>
      have hyx : key y ≤ key x := by
        rw [h x (List.mem_cons_self _ _), h y (List.mem_cons_of_mem _ (List.mem_cons_self _ _))]
      simp [insertDesc, hyx]

/-- The first element attaining the maximal key: the deterministic
insertion-order tie-break a stable descending sort realizes. -/
def firstMaxBy (key : γ → Int) : List γ → Option γ
  | [] => none
  | x :: xs =>
    match firstMaxBy key xs with
    | none => some x
    | some q => if key x < key q then some q else some x

theorem pySortDesc_head (key : γ → Int) (l : List γ) :
    (pySortDesc key l).head? = firstMaxBy key l := by
  induction l with
  | nil => rfl
  | cons x xs ih =>
    rw [pySortDesc, firstMaxBy]
    cases hxs : pySortDesc key xs with
    | nil =>
      rw [← ih, hxs]
      rfl
    | cons h rest =>
      rw [← ih, hxs]
      by_cases hc : key h ≤ key x
      · have hnl : ¬ key x < key h := not_lt.mpr hc
        simp [insertDesc, hc, hnl]
      · have hl : key x < key h := not_le.mp hc
        simp [insertDesc, hc, hl]

/-! ### `sort` (claim C8) -/

/-- `SortType`: the two recognized sorting modes. -/
inductive SortType where
  | BY_ITEM
  | BY_FREQ
  deriving DecidableEq

/-- The `by` argument of `sort`: a member of `SortType`, or anything else. -/
inductive SortArg where
  | valid : SortType → SortArg
  | notSortType : SortArg

/-- `item[by.value]`: the sort key the selected mode extracts from an entry. -/
def sortKey : SortType → Int × Int → Int
  | .BY_ITEM, p => p.1
  | .BY_FREQ, p => p.2

/-- `sort(by, acs)`: raise `InvalidSortTypeError` — before touching the table —
unless `by` is a `SortType` member; otherwise rebuild the dict from the stably
sorted entries (`reverse = not acs`). -/
def sort (t : Table Int) (b : SortArg) (acs : Bool) : Table Int × Option PyError :=
  match b with
  | .notSortType => (t, some .invalidSortTypeError)
  | .valid s =>
    (if acs then pySortAsc (sortKey s) t else pySortDesc (sortKey s) t, none)

/-- Claim C8: `sort` with an unrecognized `by` fails with
`InvalidSortTypeError` and returns the table unchanged, with no partial
mutation; with a recognized mode it only reorders the existing entries,
preserving the multiset of (item, frequency) pairs. -/
theorem claim_C8 (t : Table Int) (acs : Bool) :
    sort t SortArg.notSortType acs = (t, some PyError.invalidSortTypeError) ∧
    ∀ s : SortType,
      ((sort t (SortArg.valid s) acs).1).Perm t ∧
      (sort t (SortArg.valid s) acs).2 = none := by
  refine ⟨rfl, fun s => ⟨?_, by cases acs <;> rfl⟩⟩
  cases acs with
  | false =>
    rw [show (sort t (SortArg.valid s) false).1 = pySortDesc (sortKey s) t from rfl]
    exact pySortDesc_perm _ t
  | true =>
    rw [show (sort t (SortArg.valid s) true).1 = pySortAsc (sortKey s) t from rfl]
    exact pySortAsc_perm _ t

/-! ### `get_top_n_elements`, `get_lowest_n_elements`, `mode` (claim C10) -/

/-- Rebuild a fresh dict from a list of entries (`freqtable._table[item] = freq`
in a loop over selected entries). -/
def fromPairs [DecidableEq α] (ps : TableV α β) : TableV α β :=
  ps.foldl (fun acc p => dictSet acc p.1 p.2) []

theorem fromPairs_foldl [DecidableEq α] (ps : TableV α β) :
    ∀ acc : TableV α β, nodupKeys ps → (∀ k ∈ keys acc, k ∉ keys ps) →
    ps.foldl (fun acc p => dictSet acc p.1 p.2) acc = acc ++ ps := by
  induction ps with
  | nil => intro acc _ _; simp
  | cons p rest ih =>
    intro acc hnd hdisj
    have hcons : (p.1 :: keys rest).Nodup := hnd
    have hprest : p.1 ∉ keys rest := (List.nodup_cons.mp hcons).1
    have hrest : nodupKeys rest := (List.nodup_cons.mp hcons).2
    have hpacc : p.1 ∉ keys acc := fun h => hdisj p.1 h (List.mem_cons_self _ _)
    have hset : dictSet acc p.1 p.2 = acc ++ [(p.1, p.2)] :=
      dictSet_absent acc p.1 p.2 ((dictGet_eq_none acc p.1).mpr hpacc)
    have hdisj' : ∀ k ∈ keys (acc ++ [(p.1, p.2)]), k ∉ keys rest := by
      intro k hk
      rcases (by simpa [keys] using hk : k ∈ keys acc ∨ k = p.1) with h1 | h1
      · exact fun hm => hdisj k h1 (List.mem_cons_of_mem _ hm)
      · exact h1 ▸ hprest
    simp only [List.foldl_cons]
    rw [hset, ih (acc ++ [(p.1, p.2)]) hrest hdisj']
    simp

theorem fromPairs_eq [DecidableEq α] (ps : TableV α β) (hnd : nodupKeys ps) :
    fromPairs ps = ps := by
  simpa using fromPairs_foldl ps [] hnd (by simp [keys])

/-- `get_top_n_elements(n)`: `ValueError` for n <= 0; otherwise the first `n`
entries of the stable descending sort by frequency — `heapq.nlargest`, which
CPython documents as `sorted(items, key=key, reverse=True)[:n]` — rebuilt into
a fresh dict. -/
def get_top_n_elements [DecidableEq α] (t : Table α) (n : Int) :
    Except PyError (Table α) :=
  if n ≤ 0 then .error .valueError
  else .ok (fromPairs ((pySortDesc (fun p => p.2) t).take n.toNat))

/-- `get_lowest_n_elements(n)`: as above with `heapq.nsmallest`, documented as
`sorted(items, key=key)[:n]`. -/
def get_lowest_n_elements [DecidableEq α] (t : Table α) (n : Int) :
    Except PyError (Table α) :=
  if n ≤ 0 then .error .valueError
  else .ok (fromPairs ((pySortAsc (fun p => p.2) t).take n.toNat))

/-- `mode()` of `DiscreteFrequencyTable`: empty check, then the single key of
`get_top_n_elements(1)` (an out-of-range index would raise `IndexError`). -/
def mode (t : Table Int) : Except PyError Int :=
  if t.length = 0 then .error .valueError
  else
    match get_top_n_elements t 1 with
    | .error e => .error e
    | .ok u =>
      match (u.map (·.1)).head? with
      | some k => .ok k
      | none => .error .indexError

/-- Claim C10: top-n, lowest-n and mode are deterministic with ties among
equal frequencies broken by insertion order: `mode` returns the first key
attaining the maximal frequency, and on an all-ties table top-n and lowest-n
return exactly the first `n` entries in insertion order. -/
theorem claim_C10 (t : Table Int) (hnd : nodupKeys t) (hne : t ≠ [])
    (n : Int) (hn : 1 ≤ n) :
    (∃ p : Int × Int, firstMaxBy (fun q => q.2) t = some p ∧ mode t = .ok p.1) ∧
    ((∃ c : Int, ∀ p ∈ t, p.2 = c) →
      get_top_n_elements t n = .ok (t.take n.toNat) ∧
      get_lowest_n_elements t n = .ok (t.take n.toNat)) := by
  constructor
  · have hlen : ¬ t.length = 0 := fun h => hne (List.length_eq_zero.mp h)
    have h10 : ¬ (1:Int) ≤ 0 := by norm_num
    cases hs : pySortDesc (fun q => q.2) t with
    | nil =>
      exfalso
      have := (pySortDesc_perm (fun q : Int × Int => q.2) t).length_eq
      rw [hs] at this
      exact hlen this.symm
    | cons p rest =>
      have hfm : firstMaxBy (fun q => q.2) t = some p := by
        rw [← pySortDesc_head, hs]
        rfl
      refine ⟨p, hfm, ?_⟩
      rw [mode, if_neg hlen, get_top_n_elements, if_neg h10, hs]
      rfl
  · rintro ⟨c, hc⟩
    have hdesc := pySortDesc_const (fun q : Int × Int => q.2) c t hc
    have hasc := pySortAsc_const (fun q : Int × Int => q.2) c t hc
    have hn0 : ¬ n ≤ 0 := by omega
    have htake : nodupKeys (t.take n.toNat) := by
      unfold nodupKeys
      rw [show keys (t.take n.toNat) = (keys t).take n.toNat from
        List.map_take (fun p : Int × Int => p.1) t n.toNat]
      exact List.Nodup.sublist (List.take_sublist _ _) hnd
    constructor
    · rw [get_top_n_elements, if_neg hn0, hdesc, fromPairs_eq _ htake]
    · rw [get_lowest_n_elements, if_neg hn0, hasc, fromPairs_eq _ htake]

/-- Claim C10 witness: the theorem applied to the all-ties table
\x7b5:3, 6:3, 7:3\x7d with n = 2: mode breaks the three-way tie to the
first-inserted key 5, and top-2 / lowest-2 are the first two entries. -/
theorem claim_C10_witness :
    nodupKeys [((5:Int),(3:Int)), (6,3), (7,3)] ∧
    ([((5:Int),(3:Int)), (6,3), (7,3)] : Table Int) ≠ [] ∧ (1:Int) ≤ 2 ∧
    ((∃ p : Int × Int,
        firstMaxBy (fun q => q.2) [((5:Int),(3:Int)), (6,3), (7,3)] = some p ∧
        mode [((5:Int),(3:Int)), (6,3), (7,3)] = .ok p.1) ∧
      ((∃ c : Int, ∀ p ∈ ([((5:Int),(3:Int)), (6,3), (7,3)] : Table Int), p.2 = c) →
        get_top_n_elements [((5:Int),(3:Int)), (6,3), (7,3)] 2 = .ok [(5,3),(6,3)] ∧
        get_lowest_n_elements [((5:Int),(3:Int)), (6,3), (7,3)] 2 = .ok [(5,3),(6,3)])) :=
  ⟨by decide, by decide, by decide,
    claim_C10 [(5,3),(6,3),(7,3)] (by decide) (by decide) 2 (by decide)⟩

/-! ### `median` (claim C4) -/

/-- The weighted expansion `items`: each key repeated frequency-many times
(`[item] * freq`, empty for a non-positive frequency). -/
def expand (t : Table Int) : List Int :=
  t.foldl (fun acc p => acc ++ List.replicate p.2.toNat p.1) []

theorem expand_foldl (t : Table Int) :
    ∀ l : List Int,
    t.foldl (fun acc p => acc ++ List.replicate p.2.toNat p.1) l =
      l ++ (t.map (fun p => List.replicate p.2.toNat p.1)).flatten := by
  induction t with
  | nil => intro l; simp
  | cons p rest ih =>
    intro l
    simp only [List.foldl_cons, List.map_cons, List.flatten_cons]
    rw [ih (l ++ List.replicate p.2.toNat p.1)]
    simp [List.append_assoc]

theorem expand_length (t : Table Int) (hpos : allPos t) :
    (expand t).length = (get_total t).toNat := by
  rw [expand, expand_foldl t [], List.nil_append]
  induction t with
  | nil => simp [get_total]
  | cons p rest ih =>
    have h1 : 0 < p.2 := hpos p (List.mem_cons_self _ _)
    have hrpos : allPos rest := fun q hq => hpos q (List.mem_cons_of_mem _ hq)
    have h2 : 0 ≤ get_total rest := get_total_nonneg rest hrpos
    have htot : get_total (p :: rest) = p.2 + get_total rest := by simp [get_total]
    simp only [List.map_cons, List.flatten_cons, List.length_append, List.length_replicate]
    rw [ih hrpos, htot, Int.toNat_add (le_of_lt h1) h2]

theorem get_total_pos (t : Table α) (hpos : allPos t) (hne : t ≠ []) :
    0 < get_total t := by
  cases t with
  | nil => exact absurd rfl hne
  | cons p rest =>
    have h1 : 0 < p.2 := hpos p (List.mem_cons_self _ _)
    have h2 : 0 ≤ get_total rest :=
      get_total_nonneg rest (fun q hq => hpos q (List.mem_cons_of_mem _ hq))
    have htot : get_total (p :: rest) = p.2 + get_total rest := by simp [get_total]
    rw [htot]
    linarith

/-- `median()` of `DiscreteFrequencyTable`: `ValueError` on an empty table;
otherwise sort the weighted expansion, then return the element at index
`int(total/2)` for odd total, and the average of the elements at indices
`int(total/2)` and `int(total/2) - 1` for even total (`int(total/2)` truncates
the float `total/2`, i.e. floor for the non-negative total).  An out-of-range
index would raise `IndexError`. -/
def median (t : Table Int) : Except PyError ℚ :=
  if t.length = 0 then .error .valueError
  else
    let items := pySortAsc (fun x => x) (expand t)
    let total := get_total t
    if total % 2 = 1 then
      match items.get? (total.toNat / 2) with
      | some x => .ok (x : ℚ)
      | none => .error .indexError
    else
      match items.get? (total.toNat / 2), items.get? (total.toNat / 2 - 1) with
      | some a, some b => .ok (((a : ℚ) + (b : ℚ)) / 2)
      | _, _ => .error .indexError

/-- Claim C4: `median` expands the table to a sorted weighted sequence of
length `total`; odd total returns the element at index `total/2` (floor), even
total the average of the elements at `total/2` and `total/2 - 1`; the empty
table raises; and the spec's concrete table [1,2,2,3,3,3] has median 5/2. -/
theorem claim_C4 (t : Table Int) (hpos : allPos t) (hne : t ≠ []) :
    (pySortAsc (fun x => x) (expand t)).length = (get_total t).toNat ∧
    List.Sorted (fun a b : Int => a ≤ b) (pySortAsc (fun x => x) (expand t)) ∧
    (pySortAsc (fun x => x) (expand t)).Perm (expand t) ∧
    (∃ m : ℚ, median t = .ok m ∧
      (get_total t % 2 = 1 →
        ∃ x : Int, (pySortAsc (fun x => x) (expand t)).get? ((get_total t).toNat / 2) =
            some x ∧ m = (x : ℚ)) ∧
      (¬ get_total t % 2 = 1 →
        ∃ a b : Int,
          (pySortAsc (fun x => x) (expand t)).get? ((get_total t).toNat / 2) = some a ∧
          (pySortAsc (fun x => x) (expand t)).get? ((get_total t).toNat / 2 - 1) = some b ∧
          m = ((a : ℚ) + (b : ℚ)) / 2)) ∧
    median ([] : Table Int) = .error .valueError ∧
    median (counter [1, 2, 2, 3, 3, 3]) = .ok (5 / 2) := by
  have hlen0 : ¬ t.length = 0 := fun h => hne (List.length_eq_zero.mp h)
  have hslen : (pySortAsc (fun x => x) (expand t)).length = (get_total t).toNat := by
    rw [(pySortAsc_perm (fun x : Int => x) (expand t)).length_eq]
    exact expand_length t hpos
  have htpos : 0 < (get_total t).toNat := by
    have := get_total_pos t hpos hne
    omega
  have hidx : (get_total t).toNat / 2 < (pySortAsc (fun x => x) (expand t)).length := by
    rw [hslen]
    exact Nat.div_lt_self htpos one_lt_two
  refine ⟨hslen, pySortAsc_sorted _ _, pySortAsc_perm _ _, ?_, rfl, ?_⟩
  · by_cases hodd : get_total t % 2 = 1
    · have hg := List.get?_eq_get hidx
      refine ⟨(((pySortAsc (fun x => x) (expand t)).get
          ⟨(get_total t).toNat / 2, hidx⟩ : Int) : ℚ), ?_, ?_, ?_⟩
      · simp only [median, hlen0, hodd, if_false, if_true, ite_true, ite_false]
        rw [hg]
      · intro _
        exact ⟨_, hg, rfl⟩
      · intro h
        exact absurd hodd h
    · have hidx2 : (get_total t).toNat / 2 - 1 < (pySortAsc (fun x => x) (expand t)).length :=
        lt_of_le_of_lt (Nat.sub_le _ _) hidx
      have hg1 := List.get?_eq_get hidx
      have hg2 := List.get?_eq_get hidx2
      refine ⟨((((pySortAsc (fun x => x) (expand t)).get
            ⟨(get_total t).toNat / 2, hidx⟩ : Int) : ℚ) +
          (((pySortAsc (fun x => x) (expand t)).get
            ⟨(get_total t).toNat / 2 - 1, hidx2⟩ : Int) : ℚ)) / 2, ?_, ?_, ?_⟩
      · simp only [median, hlen0, hodd, if_false, if_true, ite_true, ite_false]
        rw [hg1, hg2]
      · intro h
        exact absurd h hodd
      · intro _
        exact ⟨_, _, hg1, hg2, rfl⟩
  · have h1 : median (counter [1, 2, 2, 3, 3, 3]) =
        .ok ((((3 : Int) : ℚ) + ((2 : Int) : ℚ)) / 2) := rfl
    rw [h1]
    norm_num

/-- Claim C4 witness: the theorem applied to the spec's table built from
[1,2,2,3,3,3], whose total 6 is even. -/
theorem claim_C4_witness :
    allPos (counter [(1:Int), 2, 2, 3, 3, 3]) ∧
    counter [(1:Int), 2, 2, 3, 3, 3] ≠ [] ∧
    median (counter [(1:Int), 2, 2, 3, 3, 3]) = .ok (5 / 2) :=
  ⟨by decide, by decide,
    (claim_C4 (counter [1, 2, 2, 3, 3, 3]) (by decide) (by decide)).2.2.2.2.2⟩

/-! ### Remaining filtering/selection operations -/

/-- `filter_by_class(predicate)`: build a fresh table, appending `[item]*freq`
for every entry the predicate accepts; `none` models a predicate exception,
which (like a falsy result) skips the entry. -/
def filter_by_class [DecidableEq α] (t : Table α) (pred : α → Int → Option Bool) :
    Table α :=
  t.foldl
    (fun acc p =>
      match pred p.1 p.2 with
      | some true => appendItems acc (List.replicate p.2.toNat p.1)
      | _ => acc)
    []

/-- `get_subset(subset_elements)`: copy the requested entries, in request
order, into a fresh table; absent elements are omitted. -/
def get_subset [DecidableEq α] (t : Table α) (elems : List α) : Table α :=
  elems.foldl
    (fun acc e =>
      match dictGet t e with
      | some v => dictSet acc e v
      | none => acc)
    []

/-! ### Positivity preservation (claim C3) -/

theorem allPos_nil [Zero β] [LT β] : allPos ([] : TableV α β) :=
  fun q hq => absurd hq (List.not_mem_nil q)

theorem allPos_dictSet [DecidableEq α] [Zero β] [LT β] (t : TableV α β) (k : α)
    (v : β) (hpos : allPos t) (hv : 0 < v) : allPos (dictSet t k v) := by
  intro q hq
  rcases mem_dictSet t k v q hq with h | h
  · rw [h]; exact hv
  · exact hpos q h

theorem allPos_counterAdd [DecidableEq α] (t : Table α) (x : α) (hpos : allPos t) :
    allPos (counterAdd t x) := by
  unfold counterAdd
  cases hg : dictGet t x with
  | some v =>
    have hv : 0 < v := hpos _ (dictGet_mem t x v hg)
    exact allPos_dictSet t x (v + 1) hpos (by linarith)
  | none =>
    intro q hq
    rcases List.mem_append.mp hq with h | h
    · exact hpos q h
    · have hq2 : q = (x, 1) := by simpa using h
      rw [hq2]
      norm_num

theorem allPos_counter_foldl [DecidableEq α] (data : List α) :
    ∀ acc : Table α, allPos acc → allPos (data.foldl counterAdd acc) := by
  induction data with
  | nil => intro acc h; exact h
  | cons x xs ih => intro acc h; exact ih _ (allPos_counterAdd acc x h)

theorem allPos_counter [DecidableEq α] (data : List α) : allPos (counter data) :=
  allPos_counter_foldl data [] allPos_nil

theorem allPos_addCounts [DecidableEq α] (ps : Table α) :
    ∀ tbl : Table α, allPos ps → allPos tbl →
    allPos (ps.foldl
      (fun tbl p =>
        match dictGet tbl p.1 with
        | some v => dictSet tbl p.1 (v + p.2)
        | none => dictSet tbl p.1 p.2) tbl) := by
  induction ps with
  | nil => intro tbl _ h; exact h
  | cons p rest ih =>
    intro tbl hps htbl
    have hp2 : 0 < p.2 := hps p (List.mem_cons_self _ _)
    have hrest : allPos rest := fun q hq => hps q (List.mem_cons_of_mem _ hq)
    simp only [List.foldl_cons]
    refine ih _ hrest ?_
    cases hg : dictGet tbl p.1 with
    | some v =>
      have hv : 0 < v := htbl _ (dictGet_mem tbl p.1 v hg)
      simp only [hg]
      exact allPos_dictSet tbl p.1 (v + p.2) htbl (by linarith)
    | none =>
      simp only [hg]
      exact allPos_dictSet tbl p.1 p.2 htbl hp2

theorem allPos_appendItems [DecidableEq α] (t : Table α) (data : List α)
    (ht : allPos t) : allPos (appendItems t data) :=
  allPos_addCounts (counter data) t (allPos_counter data) ht

theorem allPos_merge [DecidableEq α] (u : Table α) :
    ∀ t : Table α, allPos t → allPos u → allPos (merge t u) := by
  induction u with
  | nil => intro t ht _; exact ht
  | cons p rest ih =>
    intro t ht hu
    have hp2 : 0 < p.2 := hu p (List.mem_cons_self _ _)
    have hrest : allPos rest := fun q hq => hu q (List.mem_cons_of_mem _ hq)
    rw [show merge t (p :: rest) =
        merge (match dictGet t p.1 with
               | none => t ++ [(p.1, p.2)]
               | some v => dictSet t p.1 (v + p.2)) rest from by simp [merge]]
    refine ih _ ?_ hrest
    cases hg : dictGet t p.1 with
    | none =>
      simp only [hg]
      intro q hq
      rcases List.mem_append.mp hq with h | h
      · exact ht q h
      · have hq2 : q = (p.1, p.2) := by simpa using h
        rw [hq2]
        exact hp2
    | some v =>
      have hv : 0 < v := ht _ (dictGet_mem t p.1 v hg)
      simp only [hg]
      exact allPos_dictSet t p.1 (v + p.2) ht (by linarith)

theorem allPos_sort (t : Table Int) (ht : allPos t) (b : SortArg) (acs : Bool) :
    allPos (sort t b acs).1 := by
  cases b with
  | notSortType => exact ht
  | valid s =>
    intro q hq
    cases acs with
    | true =>
      exact ht q ((pySortAsc_perm (sortKey s) t).mem_iff.mp (by simpa [sort] using hq))
    | false =>
      exact ht q ((pySortDesc_perm (sortKey s) t).mem_iff.mp (by simpa [sort] using hq))

theorem allPos_map_elements [DecidableEq α] (t : TableV α Int) (f : α → Option α)
    (ht : allPos t) : allPos (map_elements t f) := by
  rw [map_elements]
  revert ht
  generalize (t.map (·.1)) = items
  revert t
  induction items with
  | nil => intro t ht; exact ht
  | cons item rest ih =>
    intro t ht
    simp only [List.foldl_cons]
    refine ih _ ?_
    cases hf : f item with
    | none => simpa [hf] using ht
    | some newItem =>
      simp only [hf]
      cases hg : dictGet t item with
      | none => simpa [hg] using ht
      | some freq =>
        simp only [hg]
        have hfreq : 0 < freq := ht _ (dictGet_mem t item freq hg)
        have hpop : allPos (dictPop t item) := fun q hq => ht q (mem_dictPop t item q hq)
        cases hg2 : dictGet (dictPop t item) newItem with
        | some v =>
          have hv : 0 < v := hpop _ (dictGet_mem _ newItem v hg2)
          simp only [hg2]
          exact allPos_dictSet _ newItem (v + freq) hpop (by linarith)
        | none =>
          simp only [hg2]
          exact allPos_dictSet _ newItem freq hpop hfreq

theorem allPos_dictPop_foldl [DecidableEq α] [Zero β] [LT β] (ks : List α) :
    ∀ l : TableV α β, allPos l →
    allPos (ks.foldl (fun acc k => dictPop acc k) l) := by
  induction ks with
  | nil => intro l h; exact h
  | cons k ks ih =>
    intro l h
    simp only [List.foldl_cons]
    exact ih _ (fun q hq => h q (mem_dictPop l k q hq))

theorem allPos_apply_frequency_operation [DecidableEq α] [LinearOrder β] [Zero β]
    (t : TableV α β) (f : β → β) (ht : allPos t) :
    allPos (apply_frequency_operation t f) := by
  simp only [apply_frequency_operation]
  apply allPos_dictPop_foldl
  intro q hq
  rcases List.mem_map.mp hq with ⟨p, hp, hpe⟩
  by_cases hc : f p.2 ≤ 0
  · rw [← hpe, if_pos hc]
    exact ht p hp
  · rw [← hpe, if_neg hc]
    exact not_le.mp hc

theorem allPos_filter_fold [DecidableEq α] (mn mx : Int) (l : Table α) :
    ∀ acc : Table α, allPos l → allPos acc →
    allPos (l.foldl
      (fun acc p => if mn ≤ p.2 ∧ p.2 ≤ mx then dictSet acc p.1 p.2 else acc) acc) := by
  induction l with
  | nil => intro acc _ h; exact h
  | cons p rest ih =>
    intro acc hl hacc
    simp only [List.foldl_cons]
    refine ih _ (fun q hq => hl q (List.mem_cons_of_mem _ hq)) ?_
    by_cases hc : mn ≤ p.2 ∧ p.2 ≤ mx
    · rw [if_pos hc]
      exact allPos_dictSet acc p.1 p.2 hacc (hl p (List.mem_cons_self _ _))
    · rw [if_neg hc]
      exact hacc

theorem allPos_filter_by_class_fold [DecidableEq α] (pred : α → Int → Option Bool)
    (l : Table α) :
    ∀ acc : Table α, allPos acc →
    allPos (l.foldl
      (fun acc p =>
        match pred p.1 p.2 with
        | some true => appendItems acc (List.replicate p.2.toNat p.1)
        | _ => acc) acc) := by
  induction l with
  | nil => intro acc h; exact h
  | cons p rest ih =>
    intro acc hacc
    simp only [List.foldl_cons]
    refine ih _ ?_
    cases hpr : pred p.1 p.2 with
    | none => simpa [hpr] using hacc
    | some b =>
      cases b with
      | false => simpa [hpr] using hacc
      | true =>
        simp only [hpr]
        exact allPos_appendItems acc _ hacc

theorem allPos_get_subset_fold [DecidableEq α] (t : Table α) (ht : allPos t)
    (elems : List α) :
    ∀ acc : Table α, allPos acc →
    allPos (elems.foldl
      (fun acc e =>
        match dictGet t e with
        | some v => dictSet acc e v
        | none => acc) acc) := by
  induction elems with
  | nil => intro acc h; exact h
  | cons e rest ih =>
    intro acc hacc
    simp only [List.foldl_cons]
    refine ih _ ?_
    cases hg : dictGet t e with
    | none => simpa [hg] using hacc
    | some v =>
      simp only [hg]
      exact allPos_dictSet acc e v hacc (ht _ (dictGet_mem t e v hg))

theorem allPos_fromPairs [DecidableEq α] (ps : Table α) :
    ∀ acc : Table α, allPos ps → allPos acc →
    allPos (ps.foldl (fun acc p => dictSet acc p.1 p.2) acc) := by
  induction ps with
  | nil => intro acc _ h; exact h
  | cons p rest ih =>
    intro acc hps hacc
    simp only [List.foldl_cons]
    exact ih _ (fun q hq => hps q (List.mem_cons_of_mem _ hq))
      (allPos_dictSet acc p.1 p.2 hacc (hps p (List.mem_cons_self _ _)))

/-- The same table at rational-valued frequencies: Python stores whatever
number a transform returns in the same dict. -/
def toQTable (t : Table α) : TableV α ℚ := t.map (fun p => (p.1, (p.2 : ℚ)))

/-- Claim C3 counterexample: from the reachable state `Counter([1,1])` =
\x7b1:2\x7d, `apply_frequency_operation(lambda v: v/4)` stores the positive
non-integral frequency 2/4 = 1/2, so not every reachable frequency is an
integer. -/
theorem claim_C3_counterexample :
    apply_frequency_operation (toQTable (counter [(1:Int), 1])) (fun v => v / 4) =
      [(1, (((2:Int) : ℚ) / 4))] ∧
    ((2:Int) : ℚ) / 4 = 1 / 2 ∧
    ∀ z : Int, ((2:Int) : ℚ) / 4 ≠ (z : ℚ) := by
  refine ⟨?_, by norm_num, ?_⟩
  · rw [apply_frequency_operation_eq _ _ (by decide)]
    have hc : ¬ (((2:Int) : ℚ) / 4 ≤ 0) := by norm_num
    show List.filterMap _ [((1:Int), ((2:Int):ℚ))] = _
    simp [List.filterMap_cons, hc]
  · intro z h
    have h2 : ((2 * z : Int) : ℚ) = ((1 : Int) : ℚ) := by
      push_cast
      rw [← h]
      norm_num
    have h4 : (2 * z : Int) = 1 := by exact_mod_cast h2
    omega

/-- Claim C3 (amended): strict positivity of every stored frequency is indeed
preserved by construction, append, merge, sort, map_elements,
apply_frequency_operation and every filtering/selection operation; but
integrality is not invariant — `apply_frequency_operation` stores any positive
value its transform returns, including non-integral rationals. -/
theorem claim_C3 (t u : Table Int) (data : List Int)
    (hpos : allPos t) (hu : allPos u) :
    allPos (counter data) ∧
    allPos (appendItems t data) ∧
    allPos (merge t u) ∧
    (∀ b acs, allPos (sort t b acs).1) ∧
    (∀ f : Int → Option Int, allPos (map_elements t f)) ∧
    (∀ f : Int → Int, allPos (apply_frequency_operation t f)) ∧
    (∀ tq : TableV Int ℚ, allPos tq → ∀ f : ℚ → ℚ,
      allPos (apply_frequency_operation tq f)) ∧
    (∀ mn mx : Int, allPos (filter_by_freq t mn mx)) ∧
    (∀ pred : Int → Int → Option Bool, allPos (filter_by_class t pred)) ∧
    (∀ es : List Int, allPos (get_subset t es)) ∧
    (∀ n : Int, ∀ w : Table Int, get_top_n_elements t n = .ok w → allPos w) ∧
    (∀ n : Int, ∀ w : Table Int, get_lowest_n_elements t n = .ok w → allPos w) := by
  refine ⟨allPos_counter data, allPos_appendItems t data hpos, allPos_merge u t hpos hu,
    fun b acs => allPos_sort t hpos b acs,
    fun f => allPos_map_elements t f hpos,
    fun f => allPos_apply_frequency_operation t f hpos,
    fun tq htq f => allPos_apply_frequency_operation tq f htq,
    fun mn mx => allPos_filter_fold mn mx t [] hpos allPos_nil,
    fun pred => allPos_filter_by_class_fold pred t [] allPos_nil,
    fun es => allPos_get_subset_fold t hpos es [] allPos_nil,
    ?_, ?_⟩
  · intro n w hw
    by_cases hn : n ≤ 0
    · rw [get_top_n_elements, if_pos hn] at hw
      cases hw
    · rw [get_top_n_elements, if_neg hn] at hw
      have hw2 : w = fromPairs ((pySortDesc (fun p => p.2) t).take n.toNat) :=
        (Except.ok.inj hw).symm
      rw [hw2]
      refine allPos_fromPairs _ [] ?_ allPos_nil
      intro q hq
      exact hpos q ((pySortDesc_perm (fun p : Int × Int => p.2) t).mem_iff.mp
        (List.take_subset _ _ hq))
  · intro n w hw
    by_cases hn : n ≤ 0
    · rw [get_lowest_n_elements, if_pos hn] at hw
      cases hw
    · rw [get_lowest_n_elements, if_neg hn] at hw
      have hw2 : w = fromPairs ((pySortAsc (fun p => p.2) t).take n.toNat) :=
        (Except.ok.inj hw).symm
      rw [hw2]
      refine allPos_fromPairs _ [] ?_ allPos_nil
      intro q hq
      exact hpos q ((pySortAsc_perm (fun p : Int × Int => p.2) t).mem_iff.mp
        (List.take_subset _ _ hq))

/-- Claim C3 witness: the amended theorem applied to the concrete tables
\x7b1:2\x7d and \x7b3:4\x7d with the batch [5, 5]. -/
theorem claim_C3_witness :
    allPos [((1:Int),(2:Int))] ∧ allPos [((3:Int),(4:Int))] ∧
    allPos (merge [((1:Int),(2:Int))] [((3:Int),(4:Int))]) ∧
    allPos (appendItems [((1:Int),(2:Int))] [5, 5]) := by
  refine ⟨by decide, by decide, ?_, ?_⟩
  · exact (claim_C3 [(1,2)] [(3,4)] [5,5] (by decide) (by decide)).2.2.1
  · exact (claim_C3 [(1,2)] [(3,4)] [5,5] (by decide) (by decide)).2.1

/-! ### `generate_random_data` (claim C9) -/

/-- `bisect.bisect_left(a, x)` on a sorted list: the insertion point, i.e. the
length of the prefix of elements strictly below `x`. -/
def bisect_left (a : List ℚ) (x : ℚ) : Nat :=
  (a.takeWhile (fun c => decide (c < x))).length

/-- The running cumulative sums (`commutative_rfreqs`): the first entry is the
first relative frequency, each later entry adds the next one. -/
def cumsumFrom (acc : ℚ) : List ℚ → List ℚ
  | [] => []
  | r :: rs => (acc + r) :: cumsumFrom (acc + r) rs

/-- One loop iteration of `generate_random_data`: locate the draw `r` in the
cumulative list with `bisect_left` and append `items[element_index]`; the dead
`element_index < 0` check and the caught `IndexError` skip a failed draw. -/
def drawStep [DecidableEq α] (items : List α) (cum : List ℚ) (acc : Table α)
    (r : ℚ) : Table α :=
  match items.get? (bisect_left cum r) with
  | some x => appendItems acc [x]
  | none => acc

/-- `generate_random_data(sample_size)`: the two validations, then
`sample_size` draws; each draw takes the next value of the random stream
(`random()` yields values in [0, 1)) and runs `drawStep`.  The stream `rands`
makes the randomness explicit; arithmetic is exact rational. -/
def generate_random_data [DecidableEq α] (t : Table α) (n : Int) (rands : List ℚ) :
    Except PyError (Table α) :=
  if n ≤ 0 then .error .valueError
  else if t.length = 0 then .error .valueError
  else
    let items := t.map (·.1)
    let cum := cumsumFrom 0 (t.map (fun p => (p.2 : ℚ) / ((get_total t : Int) : ℚ)))
    .ok ((rands.take n.toNat).foldl (drawStep items cum) [])

theorem get_total_cons (p : α × Int) (l : Table α) :
    get_total (p :: l) = p.2 + get_total l := by
  simp [get_total]

theorem get_total_dictSet [DecidableEq α] (t : Table α) (k : α) (v w : Int)
    (hg : dictGet t k = some v) :
    get_total (dictSet t k w) = get_total t - v + w := by
  induction t with
  | nil => simp [dictGet] at hg
  | cons p rest ih =>
    by_cases h : p.1 = k
    · have hv : p.2 = v := by simpa [dictGet, h] using hg
      rw [show dictSet (p :: rest) k w = (k, w) :: rest from by simp [dictSet, h]]
      rw [get_total_cons, get_total_cons, hv]
      ring
    · have hg2 : dictGet rest k = some v := by simpa [dictGet, h] using hg
      rw [show dictSet (p :: rest) k w = p :: dictSet rest k w from by simp [dictSet, h]]
      rw [get_total_cons, get_total_cons, ih hg2]
      ring

theorem get_total_appendItems_single [DecidableEq α] (acc : Table α) (x : α) :
    get_total (appendItems acc [x]) = get_total acc + 1 := by
  have h1 : appendItems acc [x] =
      (match dictGet acc x with
       | some v => dictSet acc x (v + 1)
       | none => dictSet acc x 1) := rfl
  cases hg : dictGet acc x with
  | some v =>
    rw [h1]
    simp only [hg]
    rw [get_total_dictSet acc x v (v + 1) hg]
    ring
  | none =>
    rw [h1]
    simp only [hg]
    rw [dictSet_absent acc x 1 hg]
    simp [get_total]

theorem mem_keys_dictSet [DecidableEq α] (t : TableV α β) (k0 : α) (v : β) (k : α) :
    k ∈ keys (dictSet t k0 v) → k ∈ keys t ∨ k = k0 := by
  intro hk
  rcases List.mem_map.mp hk with ⟨q, hq, hqe⟩
  rcases mem_dictSet t k0 v q hq with h | h
  · right
    rw [← hqe, h]
  · left
    exact hqe ▸ List.mem_map_of_mem _ h

theorem mem_keys_appendItems_single [DecidableEq α] (acc : Table α) (x k : α) :
    k ∈ keys (appendItems acc [x]) → k ∈ keys acc ∨ k = x := by
  have h1 : appendItems acc [x] =
      (match dictGet acc x with
       | some v => dictSet acc x (v + 1)
       | none => dictSet acc x 1) := rfl
  intro hk
  rw [h1] at hk
  cases hg : dictGet acc x with
  | some v =>
    rw [hg] at hk
    exact mem_keys_dictSet acc x (v + 1) k hk
  | none =>
    rw [hg] at hk
    exact mem_keys_dictSet acc x 1 k hk

theorem cumsumFrom_length (l : List ℚ) : ∀ a, (cumsumFrom a l).length = l.length := by
  induction l with
  | nil => intro a; rfl
  | cons r rs ih =>
    intro a
    simp only [cumsumFrom, List.length_cons]
    rw [ih (a + r)]

theorem mem_cumsumFrom_last (l : List ℚ) :
    ∀ a, l ≠ [] → (a + l.sum) ∈ cumsumFrom a l := by
  induction l with
  | nil => intro a h; exact absurd rfl h
  | cons r rs ih =>
    intro a _
    by_cases hrs : rs = []
    · subst hrs
      simp [cumsumFrom]
    · have hmem := ih (a + r) hrs
      rw [show a + (r :: rs).sum = (a + r) + rs.sum from by rw [List.sum_cons]; ring]
      show (a + r) + rs.sum ∈ (a + r) :: cumsumFrom (a + r) rs
      exact List.mem_cons_of_mem _ hmem

theorem takeWhile_length_lt (p : ℚ → Bool) (l : List ℚ) (c : ℚ)
    (hc : c ∈ l) (hp : p c = false) : (l.takeWhile p).length < l.length := by
  induction l with
  | nil => cases hc
  | cons x xs ih =>
    by_cases hx : p x = true
    · rw [List.takeWhile_cons_of_pos hx]
      simp only [List.length_cons]
      rcases List.mem_cons.mp hc with h | h
      · subst h
        rw [hp] at hx
        cases hx
      · exact Nat.succ_lt_succ (ih h)
    · rw [List.takeWhile_cons_of_neg (by simpa using hx)]
      simp

theorem sum_map_div (t : Table α) (c : ℚ) :
    (t.map (fun p => (p.2 : ℚ) / c)).sum = ((get_total t : Int) : ℚ) / c := by
  induction t with
  | nil => simp [get_total]
  | cons p rest ih =>
    rw [List.map_cons, List.sum_cons, ih, get_total_cons]
    push_cast
    rw [add_div]

theorem bisect_lt_length (t : Table α) (hpos : allPos t) (hne : t ≠ [])
    (r : ℚ) (hr2 : r < 1) :
    bisect_left (cumsumFrom 0 (t.map (fun p => (p.2 : ℚ) / ((get_total t : Int) : ℚ)))) r
      < t.length := by
  have htot : (0:ℚ) < ((get_total t : Int) : ℚ) := by
    exact_mod_cast get_total_pos t hpos hne
  have hsum : (t.map (fun p => (p.2 : ℚ) / ((get_total t : Int) : ℚ))).sum = 1 := by
    rw [sum_map_div]
    exact div_self (ne_of_gt htot)
  have hne2 : t.map (fun p => (p.2 : ℚ) / ((get_total t : Int) : ℚ)) ≠ [] := by
    simpa using hne
  have hmem := mem_cumsumFrom_last _ 0 hne2
  have hfail : decide
      ((0 + (t.map (fun p => (p.2 : ℚ) / ((get_total t : Int) : ℚ))).sum) < r) = false := by
    rw [hsum]
    simp only [decide_eq_false_iff_not, not_lt]
    linarith
  have hlt := takeWhile_length_lt (fun c => decide (c < r)) _ _ hmem hfail
  calc bisect_left (cumsumFrom 0 (t.map (fun p => (p.2 : ℚ) / ((get_total t : Int) : ℚ)))) r
      < (cumsumFrom 0 (t.map (fun p => (p.2 : ℚ) / ((get_total t : Int) : ℚ)))).length := hlt
    _ = t.length := by rw [cumsumFrom_length, List.length_map]

theorem gen_fold_spec [DecidableEq α] (t : Table α) (hpos : allPos t) (hne : t ≠ []) :
    ∀ (draws : List ℚ) (acc : Table α), (∀ r ∈ draws, r < 1) →
    get_total (draws.foldl
      (drawStep (t.map (·.1)) (cumsumFrom 0
        (t.map (fun p => (p.2 : ℚ) / ((get_total t : Int) : ℚ))))) acc) =
      get_total acc + (draws.length : Int) ∧
    ∀ k ∈ keys (draws.foldl
      (drawStep (t.map (·.1)) (cumsumFrom 0
        (t.map (fun p => (p.2 : ℚ) / ((get_total t : Int) : ℚ))))) acc),
      k ∈ keys acc ∨ k ∈ keys t := by
  intro draws
  induction draws with
  | nil =>
    intro acc _
    exact ⟨by simp, fun k hk => Or.inl hk⟩
  | cons r rs ih =>
    intro acc hb
    have hr : r < 1 := hb r (List.mem_cons_self _ _)
    have hidx := bisect_lt_length t hpos hne r hr
    have hidx2 : bisect_left (cumsumFrom 0
        (t.map (fun p => (p.2 : ℚ) / ((get_total t : Int) : ℚ)))) r <
        (t.map (·.1)).length := by
      rw [List.length_map]
      exact hidx
    have hget := List.get?_eq_get hidx2
    have hstep : drawStep (t.map (·.1)) (cumsumFrom 0
        (t.map (fun p => (p.2 : ℚ) / ((get_total t : Int) : ℚ)))) acc r =
        appendItems acc [(t.map (·.1)).get ⟨_, hidx2⟩] := by
      rw [drawStep, hget]
    simp only [List.foldl_cons, hstep]
    have hbs : ∀ r2 ∈ rs, r2 < 1 := fun r2 h2 => hb r2 (List.mem_cons_of_mem _ h2)
    have hmain := ih (appendItems acc [(t.map (·.1)).get ⟨_, hidx2⟩]) hbs
    constructor
    · rw [hmain.1, get_total_appendItems_single]
      simp only [List.length_cons]
      push_cast
      ring
    · intro k hk
      rcases hmain.2 k hk with h | h
      · rcases mem_keys_appendItems_single acc _ k h with h2 | h2
        · exact Or.inl h2
        · right
          rw [h2]
          exact List.get_mem _ _ _
      · exact Or.inr h

/-- Claim C9: `generate_random_data(n)` fails with `ValueError` iff `n <= 0`
or the table is empty; otherwise it returns a fresh table built from exactly
`n` draws — total frequency `n`, every drawn key a key of the receiver, the
receiver untouched (it is a pure value here).  Randomness is the explicit
stream `rands` of exact rationals in [0, 1). -/
theorem claim_C9 (t : Table Int) (n : Int) (rands : List ℚ)
    (hpos : allPos t) (hrands : ∀ r ∈ rands, 0 ≤ r ∧ r < 1)
    (hlen : n.toNat ≤ rands.length) :
    ((n ≤ 0 ∨ t = []) → generate_random_data t n rands = .error .valueError) ∧
    ((0 < n ∧ t ≠ []) →
      ∃ u : Table Int, generate_random_data t n rands = .ok u ∧
        get_total u = n ∧ ∀ k ∈ keys u, k ∈ keys t) := by
  constructor
  · rintro (h | h)
    · rw [generate_random_data, if_pos h]
    · by_cases hn : n ≤ 0
      · rw [generate_random_data, if_pos hn]
      · rw [generate_random_data, if_neg hn, if_pos (by rw [h]; rfl)]
  · rintro ⟨hn, hne⟩
    have hn0 : ¬ n ≤ 0 := by omega
    have hlen0 : ¬ t.length = 0 := fun h => hne (List.length_eq_zero.mp h)
    have heq : generate_random_data t n rands =
        .ok ((rands.take n.toNat).foldl
          (drawStep (t.map (·.1)) (cumsumFrom 0
            (t.map (fun p => (p.2 : ℚ) / ((get_total t : Int) : ℚ))))) []) := by
      rw [generate_random_data, if_neg hn0, if_neg hlen0]
    have hb : ∀ r ∈ rands.take n.toNat, r < 1 :=
      fun r hr => (hrands r (List.take_subset _ _ hr)).2
    have hmain := gen_fold_spec t hpos hne (rands.take n.toNat) [] hb
    refine ⟨_, heq, ?_, ?_⟩
    · rw [hmain.1]
      have hlt : (rands.take n.toNat).length = n.toNat := by
        rw [List.length_take]
        omega
      rw [hlt]
      have hz : get_total ([] : Table Int) = 0 := rfl
      rw [hz]
      omega
    · intro k hk
      rcases hmain.2 k hk with h | h
      · exact absurd h (List.not_mem_nil k)
      · exact h

/-- Claim C9 witness: three draws of 0 from the table \x7b1:1, 2:1\x7d give a
table of total frequency 3 over keys of the receiver. -/
theorem claim_C9_witness :
    allPos [((1:Int),(1:Int)), (2,1)] ∧
    (∀ r ∈ ([0, 0, 0] : List ℚ), 0 ≤ r ∧ r < 1) ∧
    (3:Int).toNat ≤ ([0, 0, 0] : List ℚ).length ∧
    (∃ u : Table Int,
      generate_random_data [((1:Int),(1:Int)), (2,1)] 3 [0, 0, 0] = .ok u ∧
      get_total u = 3 ∧ ∀ k ∈ keys u, k ∈ keys [((1:Int),(1:Int)), (2,1)]) := by
  have hb : ∀ r ∈ ([0, 0, 0] : List ℚ), 0 ≤ r ∧ r < 1 := by
    intro r hr
    rcases (by simpa using hr : r = 0 ∨ r = 0 ∨ r = 0) with h | h | h <;>
      · subst h
        norm_num
  refine ⟨by decide, hb, by decide, ?_⟩
  exact (claim_C9 [(1,1),(2,1)] 3 [0,0,0] (by decide) hb (by decide)).2
    ⟨by decide, by decide⟩

end Freq
